import Mathlib

/-!
# Verification of the staged concurrent processing core of `dsa-golang`

This file gives a shallow embedding of the concurrency patterns of the
repository and proves the specified properties about them:

* `go_concurrent_patterns/pipeline/main.go`: `generate`, the stages
  `square`, `addTen`, `double`, the generic `transform` helper and the
  linear pipeline built in `main`.
* `heap/maxHeap/main.go` (second program in the file): `generator`, the
  round-robin fan-out distributor of `main`, the `square` workers and the
  `fanIn` merger.
* the worker-pool program (`worker`, `main` with buffered `jobs` and
  `results` channels, `sync.WaitGroup`, `close` after `wg.Wait()`).

Pure loop bodies are embedded as structurally recursive list functions.
Each concurrent program is embedded as a labelled small-step transition
system: one transition per blocking channel operation (a rendezvous on an
unbuffered channel is a single transition joining the sender and the
receiver; a buffered channel is an explicit queue bounded by its
capacity), plus one transition per `close` and per `wg.Done`/`wg.Wait`
boundary.  Executions are `Relation.ReflTransGen` chains; termination is
proved with a strictly decreasing natural measure and a progress lemma.
-/

set_option maxHeartbeats 1000000

namespace DsaGolang

/-! ## Channel event traces (for the producers)

`generate` in `pipeline/main.go` and `generator` in `maxHeap/main.go`
are syntactically identical: a goroutine sends each element of `nums`
in order on a fresh channel `out`, then closes it.  We record the
sequence of channel operations the goroutine performs. -/

/-- One operation performed on a channel: a send of a value, or a close. -/
inductive ChanEvent where
  | send (v : Int)
  | close
deriving DecidableEq, Repr

/-- Trace of the goroutine body of `generate` (pipeline/main.go:11-16) and
`generator` (maxHeap/main.go second program): `for _, n := range nums { out <- n }`
followed by `close(out)`. -/
def generate : List Int → List ChanEvent
  | [] => [ChanEvent.close]
  | n :: rest => ChanEvent.send n :: generate rest

/-- The values sent in a trace, in order. -/
def sentValues : List ChanEvent → List Int
  | [] => []
  | ChanEvent.send v :: rest => v :: sentValues rest
  | ChanEvent.close :: rest => sentValues rest

/-! ## The stage loop bodies (pipeline/main.go)

Each stage's goroutine runs `for n := range in { out <- f n }` and then
closes `out`; ignoring the logging and the artificial `time.Sleep`, the
sequence of values it sends, as a function of the sequence of values it
receives, is the following structural recursion. -/

/-- Loop body of `square` (pipeline/main.go:23-29): sends `n * n` for each
received `n`. -/
def square : List Int → List Int
  | [] => []
  | n :: rest => n * n :: square rest

/-- Loop body of `addTen` (pipeline/main.go:37-43): sends `n + 10`. -/
def addTen : List Int → List Int
  | [] => []
  | n :: rest => (n + 10) :: addTen rest

/-- Loop body of `double` (pipeline/main.go:51-57): sends `n * 2`. -/
def double : List Int → List Int
  | [] => []
  | n :: rest => n * 2 :: double rest

/-- Loop body of the generic `transform` helper (pipeline/main.go:65-71):
sends `fn n` for each received `n`. -/
def transform : List Int → (Int → Int) → List Int
  | [], _ => []
  | n :: rest, fn => fn n :: transform rest fn

/-! ## The round-robin distributor (maxHeap/main.go, fan-out `main`)

The coordinator goroutine (lines 129-139) runs
`i := 0; for n := range input { inputChannels[i%numWorkers] <- n; i++ }`
and then closes every lane.  We record, for each forwarded item, the lane
index it is sent to.  In Go, `i % numWorkers` with `numWorkers = 0`
panics with a runtime division-by-zero error, which we make explicit in
the `Except`-valued variant `rrSendsE`. -/

/-- The (lane, value) pairs produced by the distributor loop starting at
counter `i`, assuming `0 < n` so that `i % n` is defined. -/
def rrSends : List Int → Nat → Nat → List (Nat × Int)
  | [], _, _ => []
  | v :: rest, n, i => (i % n, v) :: rrSends rest n i.succ

/-- A Go runtime panic raised by the distributor loop. -/
inductive GoPanic where
  | divisionByZero
deriving DecidableEq, Repr

/-- The distributor loop with Go's error semantics for `i % n`: when
`n = 0` the first loop iteration panics with a division by zero; with an
empty input the loop body never runs, so no panic occurs even for
`n = 0`. -/
def rrSendsE : List Int → Nat → Nat → Except GoPanic (List (Nat × Int))
  | [], _, _ => Except.ok []
  | v :: rest, n, i =>
    if n = 0 then Except.error GoPanic.divisionByZero
    else (rrSendsE rest n i.succ).map (fun tail => (i % n, v) :: tail)

/-- The contents of lane `j` after the distributor loop: the values of the
items routed to lane `j`, in arrival order. -/
def laneOut (l : List Int) (n j : Nat) : List Int :=
  ((rrSends l n 0).filter (fun p => p.1 == j)).map Prod.snd

/-! ## Generic infrastructure for the transition systems -/

/-- Cost of a still-pending boolean flag (an unclosed channel, an
unfinished goroutine): `1` until the flag is set, `0` afterwards. -/
def flagCost (b : Bool) : Nat := if b then 0 else 1

theorem flagCost_true : flagCost true = 0 := rfl

theorem flagCost_false : flagCost false = 1 := rfl

/-- Number of items held by an agent between its receive and its send. -/
def optCount {α : Type} : Option α → Nat
  | none => 0
  | some _ => 1

/-- Updating one coordinate of an indexed family changes a sum of a
function of the coordinates by exactly the change at that coordinate. -/
theorem sum_update_comp {n : Nat} {α M : Type} [AddCommMonoid M]
    (f : Fin n → α) (g : α → M) (i : Fin n) (b : α) :
    (∑ j, g (Function.update f i b j)) + g (f i) = (∑ j, g (f j)) + g b := by
  have h : ∀ j, g (Function.update f i b j) =
      Function.update (fun k => g (f k)) i (g b) j := by
    intro j
    by_cases hj : j = i
    · subst hj; simp
    · simp [Function.update_noteq hj]
  calc (∑ j, g (Function.update f i b j)) + g (f i)
      = (∑ j, Function.update (fun k => g (f k)) i (g b) j)
          + (fun k => g (f k)) i := by
        rw [Finset.sum_congr rfl (fun j _ => h j)]
    _ = (∑ j, g (f j)) + g b := by
        rw [Finset.sum_update_of_mem (Finset.mem_univ i), ← Finset.erase_eq,
          ← Finset.add_sum_erase Finset.univ (fun k => g (f k))
            (Finset.mem_univ i)]
        abel

/-- A step relation that strictly decreases a natural-number measure
reaches, from every state, a state with no outgoing step. -/
theorem reachesStuck {α : Type} (r : α → α → Prop) (mu : α → Nat)
    (hdec : ∀ s t, r s t → mu t < mu s) (s : α) :
    ∃ t, Relation.ReflTransGen r s t ∧ ∀ u, ¬ r t u := by
  generalize hm : mu s = m
  induction m using Nat.strong_induction_on generalizing s with
  | _ m ih =>
    by_cases hex : ∃ u, r s u
    · obtain ⟨u, hu⟩ := hex
      obtain ⟨t, ht, hstuck⟩ := ih (mu u) (hm ▸ hdec s u hu) u rfl
      exact ⟨t, Relation.ReflTransGen.head hu ht, hstuck⟩
    · exact ⟨s, Relation.ReflTransGen.refl, fun u hu => hex ⟨u, hu⟩⟩

/-! ## The fan-in merger (maxHeap/main.go:88-110)

`fanIn(channels ...<-chan int)` starts one forwarding goroutine per input
channel, each running `for val := range c { out <- val }` followed by the
deferred `wg.Done()`, plus one closing goroutine running `wg.Wait();
close(out)`.  The input channels are produced upstream as finite
sequences followed by a close, so input channel `i` is modelled by the
list of values still to be received from it.  `out` is unbuffered; a
completed send on it (a rendezvous with the consumer) appends the value
to the observed output sequence `out`.  The `WaitGroup` counter equals
the number of forwarders whose `done` flag is still `false`. -/

/-- State of the fan-in merger with `m` input channels. -/
structure FanState (m : Nat) where
  /-- values not yet forwarded from input channel `i` -/
  rem : Fin m → List Int
  /-- whether forwarder `i` has exited and run its deferred `wg.Done()` -/
  done : Fin m → Bool
  /-- values delivered on the shared output channel, in delivery order -/
  out : List Int
  /-- whether `close(out)` has executed -/
  outClosed : Bool

/-- The goroutine performing a fan-in step: a forwarding worker, or the
dedicated closing goroutine. -/
inductive FanLabel (m : Nat) where
  | fwd (i : Fin m)
  | closer
deriving DecidableEq

/-- Small-step semantics of `fanIn`.  `send` is one iteration of a
forwarder's `for val := range c { out <- val }`; `finish` is the range
loop of forwarder `i` observing exhaustion and running `wg.Done()`;
`closeOut` is `wg.Wait()` returning (all forwarders done) followed by
`close(out)`. -/
inductive FanStepL {m : Nat} : FanLabel m → FanState m → FanState m → Prop where
  | send (i : Fin m) (v : Int) (rest : List Int) (s : FanState m)
      (hrem : s.rem i = v :: rest) :
      FanStepL (.fwd i) s
        { s with rem := Function.update s.rem i rest, out := s.out ++ [v] }
  | finish (i : Fin m) (s : FanState m)
      (hrem : s.rem i = []) (hdone : s.done i = false) :
      FanStepL (.fwd i) s { s with done := Function.update s.done i true }
  | closeOut (s : FanState m)
      (hall : ∀ i, s.done i = true) (hcl : s.outClosed = false) :
      FanStepL .closer s { s with outClosed := true }

/-- A fan-in step by any goroutine. -/
def FanStep {m : Nat} (s t : FanState m) : Prop := ∃ lbl, FanStepL lbl s t

/-- Initial fan-in state: nothing forwarded, counter at `m`, output open. -/
def fanInit {m : Nat} (orig : Fin m → List Int) : FanState m :=
  { rem := orig, done := fun _ => false, out := [], outClosed := false }

/-- Reachability from the initial fan-in state. -/
def FanReach {m : Nat} (orig : Fin m → List Int) (s : FanState m) : Prop :=
  Relation.ReflTransGen FanStep (fanInit orig) s

/-- The inductive invariant of the fan-in merger. -/
def FanInv {m : Nat} (orig : Fin m → List Int) (s : FanState m) : Prop :=
  (∀ i, ∃ pre, orig i = pre ++ s.rem i ∧ pre.Sublist s.out) ∧
  ((∑ i, ((s.rem i : Multiset Int))) + (s.out : Multiset Int)
      = ∑ i, ((orig i : Multiset Int))) ∧
  (∀ i, s.done i = true → s.rem i = []) ∧
  (s.outClosed = true → ∀ i, s.done i = true)

theorem fanInv_init {m : Nat} (orig : Fin m → List Int) :
    FanInv orig (fanInit orig) := by
  refine ⟨fun i => ⟨[], rfl, List.nil_sublist _⟩, ?_, fun i h => by
    simp [fanInit] at h, fun h => by simp [fanInit] at h⟩
  simp [fanInit]

theorem fanInv_step {m : Nat} {orig : Fin m → List Int}
    {lbl : FanLabel m} {s t : FanState m}
    (hinv : FanInv orig s) (hstep : FanStepL lbl s t) : FanInv orig t := by
  obtain ⟨hsub, hms, hdr, hcd⟩ := hinv
  cases hstep with
  | send i v rest s hrem =>
    refine ⟨?_, ?_, ?_, ?_⟩
    · intro j
      obtain ⟨pre, horig, hpre⟩ := hsub j
      by_cases hj : j = i
      · subst hj
        refine ⟨pre ++ [v], ?_, ?_⟩
        · simp only [Function.update_same]
          rw [horig, hrem, List.append_assoc]
          rfl
        · exact hpre.append (List.Sublist.refl [v])
      · exact ⟨pre, by simpa [Function.update_noteq hj] using horig,
          hpre.trans (List.sublist_append_left s.out [v])⟩
    · have hX := sum_update_comp s.rem (fun l => (l : Multiset Int)) i rest
      rw [hrem] at hX
      have hcons : ((v :: rest : List Int) : Multiset Int)
          = {v} + (rest : Multiset Int) :=
        ((Multiset.singleton_add v (rest : Multiset Int)).trans
          (Multiset.cons_coe v rest)).symm
      have hXv : (∑ j, ((Function.update s.rem i rest j : Multiset Int)))
          + {v} = ∑ j, ((s.rem j : Multiset Int)) := by
        apply add_right_cancel (b := (rest : Multiset Int))
        calc (∑ j, ((Function.update s.rem i rest j : Multiset Int)))
              + {v} + (rest : Multiset Int)
            = (∑ j, ((Function.update s.rem i rest j : Multiset Int)))
              + ((v :: rest : List Int) : Multiset Int) := by
              rw [hcons]
              exact add_assoc _ _ _
          _ = (∑ j, ((s.rem j : Multiset Int))) + (rest : Multiset Int) := hX
      have hout : ((s.out ++ [v] : List Int) : Multiset Int)
          = (s.out : Multiset Int) + {v} := rfl
      rw [hout, ← hms, ← hXv]
      abel
    · intro j hj
      by_cases hji : j = i
      · subst hji
        have := hdr j hj
        rw [hrem] at this
        exact absurd this (List.cons_ne_nil v rest)
      · simpa [Function.update_noteq hji] using hdr j hj
    · intro hc
      exact hcd hc
  | finish i s hrem hdone =>
    refine ⟨hsub, hms, ?_, ?_⟩
    · intro j hj
      by_cases hji : j = i
      · subst hji; exact hrem
      · exact hdr j (by simpa [Function.update_noteq hji] using hj)
    · intro hc j
      by_cases hji : j = i
      · subst hji; simp
      · simpa [Function.update_noteq hji] using hcd hc j
  | closeOut s hall hcl =>
    exact ⟨hsub, hms, hdr, fun _ => hall⟩

theorem fanInv_reach {m : Nat} {orig : Fin m → List Int} {s : FanState m}
    (h : FanReach orig s) : FanInv orig s := by
  induction h with
  | refl => exact fanInv_init orig
  | tail hstar hstep ih =>
    obtain ⟨lbl, hstep⟩ := hstep
    exact fanInv_step ih hstep

/-- Termination measure for the fan-in merger. -/
def fanMeasure {m : Nat} (s : FanState m) : Nat :=
  (∑ i, (s.rem i).length) + (∑ i, flagCost (s.done i)) + flagCost s.outClosed

theorem fanStep_measure {m : Nat} {s t : FanState m} (h : FanStep s t) :
    fanMeasure t < fanMeasure s := by
  obtain ⟨lbl, h⟩ := h
  cases h with
  | send i v rest s hrem =>
    have hX := sum_update_comp s.rem List.length i rest
    rw [hrem] at hX
    simp only [List.length_cons] at hX
    simp only [fanMeasure]
    omega
  | finish i s hrem hdone =>
    have hX := sum_update_comp s.done flagCost i true
    rw [hdone, flagCost_false, flagCost_true] at hX
    simp only [fanMeasure]
    omega
  | closeOut s hall hcl =>
    simp only [fanMeasure, hcl, flagCost_true, flagCost_false]
    omega

/-- Progress: a stuck fan-in state has delivered everything, every
forwarder has decremented the counter, and the output channel is
closed. -/
theorem fanStuck {m : Nat} (s : FanState m) (hstuck : ∀ u, ¬ FanStep s u) :
    s.outClosed = true ∧ (∀ i, s.rem i = []) ∧ (∀ i, s.done i = true) := by
  have hrem : ∀ i, s.rem i = [] := by
    intro i
    cases hri : s.rem i with
    | nil => rfl
    | cons v rest =>
      exact absurd ⟨_, FanStepL.send i v rest s hri⟩ (hstuck _)
  have hdone : ∀ i, s.done i = true := by
    intro i
    by_cases hdi : s.done i = true
    · exact hdi
    · exact absurd ⟨_, FanStepL.finish i s (hrem i)
        (Bool.not_eq_true _ ▸ hdi : s.done i = false)⟩ (hstuck _)
  have hcl : s.outClosed = true := by
    by_cases hc : s.outClosed = true
    · exact hc
    · exact absurd ⟨_, FanStepL.closeOut s hdone
        (Bool.not_eq_true _ ▸ hc : s.outClosed = false)⟩ (hstuck _)
  exact ⟨hcl, hrem, hdone⟩

/-- The fan-in of zero input channels (`fanIn()` with no arguments). -/
def fanNoInputs : Fin 0 → List Int := fun i => i.elim0

/-- A one-channel fan-in input whose channel is already exhausted. -/
def fanOneEmpty : Fin 1 → List Int := fun _ => []

/-- The state after forwarder `0` of `fanOneEmpty` has exited. -/
def fanOneDone : FanState 1 :=
  { fanInit fanOneEmpty with done := Function.update (fun _ => false) 0 true }

/-- `fanOneDone` with the output channel closed by the closer. -/
def fanOneClosed : FanState 1 := { fanOneDone with outClosed := true }

theorem fanOneClosed_reach : FanReach fanOneEmpty fanOneClosed := by
  refine Relation.ReflTransGen.head ⟨_, FanStepL.finish 0 _ rfl rfl⟩ ?_
  exact Relation.ReflTransGen.single
    ⟨_, FanStepL.closeOut fanOneDone (by decide) rfl⟩

/-- **C1.** The fan-in output channel is never closed while a forwarding
worker might still send: in every reachable state, if `out` is closed
then every forwarder has observed its input channel exhausted and has
decremented the liveness counter (the count is zero), and no further
step changes `out` or re-opens it; moreover the only transition that
closes `out` is the dedicated closer's, which is enabled only when the
count has reached zero and `out` is still open — so the close happens
exactly once, by the single designated actor. -/
theorem fanIn_no_premature_close {m : Nat} (orig : Fin m → List Int)
    (s : FanState m) (hs : FanReach orig s) :
    (s.outClosed = true → (∀ i, s.done i = true) ∧
      ∀ lbl t, FanStepL lbl s t → t.out = s.out ∧ t.outClosed = true) ∧
    (∀ lbl t, FanStepL lbl s t → s.outClosed = false → t.outClosed = true →
      lbl = FanLabel.closer ∧ ∀ i, s.done i = true) := by
  obtain ⟨hsub, hms, hdr, hcd⟩ := fanInv_reach hs
  constructor
  · intro hcl
    refine ⟨hcd hcl, ?_⟩
    intro lbl t hstep
    cases hstep with
    | send i v rest s hrem =>
      have : s.rem i = [] := hdr i (hcd hcl i)
      rw [this] at hrem
      exact absurd hrem.symm (List.cons_ne_nil v rest)
    | finish i s hrem hdone => exact ⟨rfl, hcl⟩
    | closeOut s hall hclosed =>
      rw [hcl] at hclosed
      exact absurd hclosed (by simp)
  · intro lbl t hstep hopen hclosed
    cases hstep with
    | send i v rest s hrem =>
      rw [hopen] at hclosed
      exact absurd hclosed (by simp)
    | finish i s hrem hdone =>
      rw [hopen] at hclosed
      exact absurd hclosed (by simp)
    | closeOut s hall hclosed => exact ⟨rfl, hall⟩

theorem fanIn_no_premature_close_witness :
    fanOneClosed.done 0 = true :=
  ((fanIn_no_premature_close fanOneEmpty fanOneClosed fanOneClosed_reach).1
    rfl).1 0

/-- **C3.** Fan-in completeness: for every family of finite input
sequences a complete execution exists; every complete (stuck) reachable
state has the output channel closed with output multiset equal to the
union of the input multisets (nothing lost, nothing duplicated) and each
input lane appearing in the output as a subsequence (per-lane order
preserved); and conversely in any reachable state where the output is
closed, every input channel has already been fully drained and every
forwarder has finished — the output closes only after every input
closes. -/
theorem fanIn_completeness {m : Nat} (orig : Fin m → List Int) :
    (∃ t, FanReach orig t ∧ ∀ u, ¬ FanStep t u) ∧
    (∀ t, FanReach orig t → (∀ u, ¬ FanStep t u) →
      t.outClosed = true ∧
      (t.out : Multiset Int) = (∑ i, ((orig i : Multiset Int))) ∧
      ∀ i, (orig i).Sublist t.out) ∧
    (∀ t, FanReach orig t → t.outClosed = true →
      (∀ i, t.done i = true) ∧ ∀ i, t.rem i = []) := by
  refine ⟨?_, ?_, ?_⟩
  · exact reachesStuck FanStep fanMeasure (fun s t h => fanStep_measure h)
      (fanInit orig)
  · intro t hreach hstuck
    obtain ⟨hcl, hrem, _⟩ := fanStuck t hstuck
    obtain ⟨hsub, hms, _, _⟩ := fanInv_reach hreach
    refine ⟨hcl, ?_, ?_⟩
    · have hzero : (∑ i, ((t.rem i : Multiset Int))) = 0 := by
        rw [Finset.sum_congr rfl (fun i _ => by rw [hrem i])]
        simp
      rw [hzero, zero_add] at hms
      exact hms
    · intro i
      obtain ⟨pre, horig, hpre⟩ := hsub i
      rw [hrem i, List.append_nil] at horig
      rw [horig]
      exact hpre
  · intro t hreach hcl
    obtain ⟨_, _, hdr, hcd⟩ := fanInv_reach hreach
    exact ⟨hcd hcl, fun i => hdr i (hcd hcl i)⟩

theorem fanIn_completeness_witness :
    ∃ t, FanReach fanOneEmpty t ∧ ∀ u, ¬ FanStep t u :=
  (fanIn_completeness fanOneEmpty).1

/-- **C10.** `fanIn` applied to zero input channels is not an error: the
`WaitGroup` counter starts at zero, so from the initial state the only
enabled transition is the closer's, which closes the output channel at
once; the resulting state is final, the output channel is closed, and no
item was ever delivered. -/
theorem fanIn_zero_channels :
    (∀ lbl t, FanStepL lbl (fanInit fanNoInputs) t →
      lbl = FanLabel.closer ∧
      t = { fanInit fanNoInputs with outClosed := true }) ∧
    FanStep (fanInit fanNoInputs)
      { fanInit fanNoInputs with outClosed := true } ∧
    ({ fanInit fanNoInputs with outClosed := true } : FanState 0).out = [] ∧
    ({ fanInit fanNoInputs with outClosed := true } :
        FanState 0).outClosed = true ∧
    ∀ u, ¬ FanStep { fanInit fanNoInputs with outClosed := true } u := by
  refine ⟨?_, ⟨_, FanStepL.closeOut _ (fun i => i.elim0) rfl⟩, rfl, rfl, ?_⟩
  · intro lbl t hstep
    cases hstep with
    | send i v rest s hrem => exact i.elim0
    | finish i s hrem hdone => exact i.elim0
    | closeOut s hall hcl => exact ⟨rfl, rfl⟩
  · rintro u ⟨lbl, hstep⟩
    cases hstep with
    | send i v rest s hrem => exact i.elim0
    | finish i s hrem hdone => exact i.elim0
    | closeOut s hall hcl => simp at hcl

theorem fanIn_zero_channels_witness :
    ({ fanInit fanNoInputs with outClosed := true } : FanState 0).out = []
      ∧ ({ fanInit fanNoInputs with outClosed := true } :
          FanState 0).outClosed = true :=
  ⟨fanIn_zero_channels.2.2.1, fanIn_zero_channels.2.2.2.1⟩

/-! ## Source followed by a single transform stage (pipeline/main.go)

`generate(nums...)` feeds an unbuffered channel; one stage goroutine
(`square`, `addTen`, `double`, or `transform(in, fn, name)`) ranges over
it, sends `fn n` on its own unbuffered output channel, and closes that
channel when its input is exhausted; the consumer ranges over the output.
A rendezvous between `generate`'s send and the stage's receive is the
`recv` transition (fused with the stage's local computation of `fn n`);
the rendezvous between the stage's send and the consumer's receive is
`emit`, which appends the value to the observed output sequence. -/

/-- State of a `generate` → stage → consumer chain. -/
structure SlState where
  /-- values `generate` has not yet sent -/
  src : List Int
  /-- whether `generate` has executed `close(out)` on its channel -/
  srcClosed : Bool
  /-- the value (already transformed) the stage is blocked sending -/
  hold : Option Int
  /-- values delivered to the consumer, in delivery order -/
  out : List Int
  /-- whether the stage has executed `close(out)` -/
  outClosed : Bool

/-- Small-step semantics of the source→stage chain. -/
inductive SlStep (fn : Int → Int) : SlState → SlState → Prop where
  | recv (v : Int) (rest : List Int) (s : SlState)
      (hsrc : s.src = v :: rest) (hhold : s.hold = none) :
      SlStep fn s { s with src := rest, hold := some (fn v) }
  | emit (w : Int) (s : SlState) (hhold : s.hold = some w) :
      SlStep fn s { s with hold := none, out := s.out ++ [w] }
  | closeSrc (s : SlState) (hsrc : s.src = []) (hcl : s.srcClosed = false) :
      SlStep fn s { s with srcClosed := true }
  | closeOut (s : SlState) (hsrc : s.src = []) (hclsrc : s.srcClosed = true)
      (hhold : s.hold = none) (hcl : s.outClosed = false) :
      SlStep fn s { s with outClosed := true }

/-- Initial state: `generate` holds the whole input, nothing in flight. -/
def slInit (l : List Int) : SlState :=
  { src := l, srcClosed := false, hold := none, out := [], outClosed := false }

/-- Inductive invariant of the source→stage chain: delivered output,
the in-flight value, and the transforms of the still-unsent inputs
concatenate to `map fn` of the whole input. -/
def SlInv (fn : Int → Int) (l : List Int) (s : SlState) : Prop :=
  s.out ++ s.hold.toList ++ s.src.map fn = l.map fn

theorem slInv_step {fn : Int → Int} {l : List Int} {s t : SlState}
    (hinv : SlInv fn l s) (hstep : SlStep fn s t) : SlInv fn l t := by
  cases hstep with
  | recv v rest s hsrc hhold =>
    simp only [SlInv] at hinv ⊢
    rw [← hinv, hsrc, hhold]
    simp
  | emit w s hhold =>
    simp only [SlInv] at hinv ⊢
    rw [← hinv, hhold]
    simp
  | closeSrc s hsrc hcl => exact hinv
  | closeOut s hsrc hclsrc hhold hcl => exact hinv

theorem slInv_reach {fn : Int → Int} {l : List Int} {s : SlState}
    (h : Relation.ReflTransGen (SlStep fn) (slInit l) s) : SlInv fn l s := by
  induction h with
  | refl => simp [SlInv, slInit]
  | tail hstar hstep ih => exact slInv_step ih hstep

/-- Termination measure for the source→stage chain. -/
def slMeasure (s : SlState) : Nat :=
  2 * s.src.length + optCount s.hold + flagCost s.srcClosed
    + flagCost s.outClosed

theorem slStep_measure {fn : Int → Int} {s t : SlState}
    (h : SlStep fn s t) : slMeasure t < slMeasure s := by
  cases h with
  | recv v rest s hsrc hhold =>
    simp only [slMeasure, hsrc, hhold, optCount, List.length_cons]
    omega
  | emit w s hhold =>
    simp only [slMeasure, hhold, optCount]
    omega
  | closeSrc s hsrc hcl =>
    simp only [slMeasure, hcl, flagCost_true, flagCost_false]
    omega
  | closeOut s hsrc hclsrc hhold hcl =>
    simp only [slMeasure, hcl, flagCost_true, flagCost_false]
    omega

/-- Progress: a stuck state of the source→stage chain has consumed the
whole input, holds nothing in flight, and has closed both channels. -/
theorem slStuck {fn : Int → Int} (s : SlState)
    (hstuck : ∀ u, ¬ SlStep fn s u) :
    s.src = [] ∧ s.hold = none ∧ s.srcClosed = true ∧ s.outClosed = true := by
  have hhold : s.hold = none := by
    cases hh : s.hold with
    | none => rfl
    | some w => exact absurd (SlStep.emit w s hh) (hstuck _)
  have hsrc : s.src = [] := by
    cases hsv : s.src with
    | nil => rfl
    | cons v rest => exact absurd (SlStep.recv v rest s hsv hhold) (hstuck _)
  have hclsrc : s.srcClosed = true := by
    by_cases hc : s.srcClosed = true
    · exact hc
    · exact absurd (SlStep.closeSrc s hsrc (Bool.not_eq_true _ ▸ hc))
        (hstuck _)
  have hclout : s.outClosed = true := by
    by_cases hc : s.outClosed = true
    · exact hc
    · exact absurd (SlStep.closeOut s hsrc hclsrc hhold
        (Bool.not_eq_true _ ▸ hc)) (hstuck _)
  exact ⟨hsrc, hhold, hclsrc, hclout⟩

/-- **C5.** A `Source` followed by a single transform `Stage`: a complete
execution exists, and every complete (stuck) execution delivers exactly
`map fn input` in input order on the stage's output channel, which ends
closed — the stage applies `fn` to each received item and its output
preserves the receive order of its input (FIFO). -/
theorem source_stage_map (fn : Int → Int) (l : List Int) :
    (∃ t, Relation.ReflTransGen (SlStep fn) (slInit l) t ∧
      ∀ u, ¬ SlStep fn t u) ∧
    (∀ t, Relation.ReflTransGen (SlStep fn) (slInit l) t →
      (∀ u, ¬ SlStep fn t u) →
      t.out = l.map fn ∧ t.outClosed = true) := by
  constructor
  · exact reachesStuck (SlStep fn) slMeasure
      (fun s t h => slStep_measure h) (slInit l)
  · intro t hreach hstuck
    obtain ⟨hsrc, hhold, _, hclout⟩ := slStuck t hstuck
    have hinv := slInv_reach hreach
    simp only [SlInv, hsrc, hhold] at hinv
    simp only [Option.toList_none, List.append_nil, List.map_nil] at hinv
    exact ⟨hinv, hclout⟩

theorem source_stage_map_witness :
    ∃ t, Relation.ReflTransGen (SlStep (fun n => n * n)) (slInit [1, 2, 3]) t
      ∧ ∀ u, ¬ SlStep (fun n => n * n) t u :=
  (source_stage_map (fun n => n * n) [1, 2, 3]).1

/-! ## The linear three-stage pipeline of pipeline/main.go `main`

`generate(1,2,3,4,5)` → `square` → `addTen` → `double` → the consuming
`for result := range doubled` loop, all channels unbuffered.  Each stage
may hold one (already transformed) value between its receive and its
send; each stage closes its output channel after its input channel is
exhausted. -/

/-- State of the three-stage linear pipeline. -/
structure LinState where
  src : List Int
  srcClosed : Bool
  /-- value `square` is blocked sending -/
  hold1 : Option Int
  /-- whether `square` has closed its output channel -/
  closed1 : Bool
  /-- value `addTen` is blocked sending -/
  hold2 : Option Int
  closed2 : Bool
  /-- value `double` is blocked sending -/
  hold3 : Option Int
  /-- whether `double` has closed the terminal channel -/
  closed3 : Bool
  /-- values the consumer has received -/
  out : List Int

/-- Small-step semantics of the three-stage pipeline, generic in the
three transformation functions. -/
inductive LinStep (f1 f2 f3 : Int → Int) : LinState → LinState → Prop where
  | recv1 (v : Int) (rest : List Int) (s : LinState)
      (hsrc : s.src = v :: rest) (h : s.hold1 = none) :
      LinStep f1 f2 f3 s { s with src := rest, hold1 := some (f1 v) }
  | xfer12 (w : Int) (s : LinState)
      (h1 : s.hold1 = some w) (h2 : s.hold2 = none) :
      LinStep f1 f2 f3 s { s with hold1 := none, hold2 := some (f2 w) }
  | xfer23 (w : Int) (s : LinState)
      (h2 : s.hold2 = some w) (h3 : s.hold3 = none) :
      LinStep f1 f2 f3 s { s with hold2 := none, hold3 := some (f3 w) }
  | emit (w : Int) (s : LinState) (h3 : s.hold3 = some w) :
      LinStep f1 f2 f3 s { s with hold3 := none, out := s.out ++ [w] }
  | closeSrc (s : LinState) (hsrc : s.src = [])
      (h : s.srcClosed = false) :
      LinStep f1 f2 f3 s { s with srcClosed := true }
  | close1 (s : LinState) (hsrc : s.src = []) (hc : s.srcClosed = true)
      (h : s.hold1 = none) (hc1 : s.closed1 = false) :
      LinStep f1 f2 f3 s { s with closed1 := true }
  | close2 (s : LinState) (hc1 : s.closed1 = true)
      (h : s.hold2 = none) (hc2 : s.closed2 = false) :
      LinStep f1 f2 f3 s { s with closed2 := true }
  | close3 (s : LinState) (hc2 : s.closed2 = true)
      (h : s.hold3 = none) (hc3 : s.closed3 = false) :
      LinStep f1 f2 f3 s { s with closed3 := true }

/-- Initial state of the linear pipeline on input `l`. -/
def linInit (l : List Int) : LinState :=
  { src := l, srcClosed := false, hold1 := none, closed1 := false,
    hold2 := none, closed2 := false, hold3 := none, closed3 := false,
    out := [] }

/-- Termination measure for the linear pipeline. -/
def linMeasure (s : LinState) : Nat :=
  4 * s.src.length + 3 * optCount s.hold1 + 2 * optCount s.hold2
    + optCount s.hold3 + flagCost s.srcClosed + flagCost s.closed1
    + flagCost s.closed2 + flagCost s.closed3

theorem linStep_measure {f1 f2 f3 : Int → Int} {s t : LinState}
    (h : LinStep f1 f2 f3 s t) : linMeasure t < linMeasure s := by
  cases h with
  | recv1 v rest s hsrc h =>
    simp only [linMeasure, hsrc, h, optCount, List.length_cons]
    omega
  | xfer12 w s h1 h2 =>
    simp only [linMeasure, h1, h2, optCount]
    omega
  | xfer23 w s h2 h3 =>
    simp only [linMeasure, h2, h3, optCount]
    omega
  | emit w s h3 =>
    simp only [linMeasure, h3, optCount]
    omega
  | closeSrc s hsrc h =>
    simp only [linMeasure, h, flagCost_true, flagCost_false]
    omega
  | close1 s hsrc hc h hc1 =>
    simp only [linMeasure, hc1, flagCost_true, flagCost_false]
    omega
  | close2 s hc1 h hc2 =>
    simp only [linMeasure, hc2, flagCost_true, flagCost_false]
    omega
  | close3 s hc2 h hc3 =>
    simp only [linMeasure, hc3, flagCost_true, flagCost_false]
    omega

/-- Progress: a stuck state of the linear pipeline has fully drained and
closed every channel; in particular the terminal channel is closed. -/
theorem linStuck {f1 f2 f3 : Int → Int} (s : LinState)
    (hstuck : ∀ u, ¬ LinStep f1 f2 f3 s u) :
    s.closed3 = true ∧ s.closed2 = true ∧ s.closed1 = true ∧
      s.srcClosed = true ∧ s.src = [] ∧ s.hold1 = none ∧
      s.hold2 = none ∧ s.hold3 = none := by
  have h3 : s.hold3 = none := by
    cases hh : s.hold3 with
    | none => rfl
    | some w => exact absurd (LinStep.emit w s hh) (hstuck _)
  have h2 : s.hold2 = none := by
    cases hh : s.hold2 with
    | none => rfl
    | some w => exact absurd (LinStep.xfer23 w s hh h3) (hstuck _)
  have h1 : s.hold1 = none := by
    cases hh : s.hold1 with
    | none => rfl
    | some w => exact absurd (LinStep.xfer12 w s hh h2) (hstuck _)
  have hsrc : s.src = [] := by
    cases hsv : s.src with
    | nil => rfl
    | cons v rest => exact absurd (LinStep.recv1 v rest s hsv h1) (hstuck _)
  have hcs : s.srcClosed = true := by
    by_cases hc : s.srcClosed = true
    · exact hc
    · exact absurd (LinStep.closeSrc s hsrc (Bool.not_eq_true _ ▸ hc))
        (hstuck _)
  have hc1 : s.closed1 = true := by
    by_cases hc : s.closed1 = true
    · exact hc
    · exact absurd (LinStep.close1 s hsrc hcs h1 (Bool.not_eq_true _ ▸ hc))
        (hstuck _)
  have hc2 : s.closed2 = true := by
    by_cases hc : s.closed2 = true
    · exact hc
    · exact absurd (LinStep.close2 s hc1 h2 (Bool.not_eq_true _ ▸ hc))
        (hstuck _)
  have hc3 : s.closed3 = true := by
    by_cases hc : s.closed3 = true
    · exact hc
    · exact absurd (LinStep.close3 s hc2 h3 (Bool.not_eq_true _ ▸ hc))
        (hstuck _)
  exact ⟨hc3, hc2, hc1, hcs, hsrc, h1, h2, h3⟩

theorem optCount_none {α : Type} : optCount (none : Option α) = 0 := rfl

theorem optCount_some {α : Type} (a : α) : optCount (some a) = 1 := rfl

/-! ## The fan-out / fan-in pipeline of maxHeap/main.go `main`

`generator(1..10)` feeds an unbuffered `input` channel; a coordinator
goroutine forwards item `i` to the unbuffered `inputChannels[i %
numWorkers]` and, when `input` is exhausted, closes all the lane
channels; worker `i` is `square(inputChannels[i])`; the worker outputs
are merged by `fanIn` into `results`, which `main` consumes.  Per lane
we track the coordinator-side closed flag of `inputChannels[i]`, the
value the `square` worker is blocked sending (already squared), the
closed flag of the worker's output channel, the value the fan-in
forwarder is blocked sending on `out`, and the forwarder's `wg.Done`
flag. -/

/-- Per-lane state of the fan-out / fan-in pipeline. -/
structure FoLane where
  /-- whether the coordinator has closed `inputChannels[i]` -/
  inClosed : Bool
  /-- the (already squared) value worker `i` is blocked sending -/
  workHold : Option Int
  /-- whether worker `i` has closed its output channel -/
  workOutClosed : Bool
  /-- the value fan-in forwarder `i` is blocked sending on `out` -/
  fwdHold : Option Int
  /-- whether forwarder `i` has run its deferred `wg.Done()` -/
  fwdDone : Bool

/-- Global state of the fan-out / fan-in pipeline with `n` workers. -/
structure FoState (n : Nat) where
  /-- values `generator` has not yet sent -/
  src : List Int
  srcClosed : Bool
  /-- the value the coordinator received but has not yet forwarded -/
  distHold : Option Int
  /-- the coordinator's round-robin counter `i` -/
  distIdx : Nat
  lane : Fin n → FoLane
  /-- values delivered on the merged `results` channel -/
  out : List Int
  outClosed : Bool

/-- Small-step semantics of the fan-out / fan-in pipeline.  `laneXfer`
is the rendezvous of the coordinator's `inputChannels[i%numWorkers] <- n`
with worker `i`'s receive (fused with the worker computing `n * n`);
note its `i % n < n` premise: with `n = 0` the Go expression
`i % numWorkers` would panic, and no such transition exists. -/
inductive FoStep {n : Nat} : FoState n → FoState n → Prop where
  | closeSrc (s : FoState n) (hsrc : s.src = [])
      (hcl : s.srcClosed = false) :
      FoStep s { s with srcClosed := true }
  | distRecv (v : Int) (rest : List Int) (s : FoState n)
      (hsrc : s.src = v :: rest) (hh : s.distHold = none) :
      FoStep s { s with src := rest, distHold := some v }
  | laneXfer (v : Int) (s : FoState n) (hh : s.distHold = some v)
      (hlt : s.distIdx % n < n)
      (hw : (s.lane ⟨s.distIdx % n, hlt⟩).workHold = none) :
      FoStep s { s with
        distHold := none
        distIdx := s.distIdx + 1
        lane := Function.update s.lane ⟨s.distIdx % n, hlt⟩ { (s.lane ⟨s.distIdx % n, hlt⟩) with workHold := some (v * v) } }
  | workSend (i : Fin n) (w : Int) (s : FoState n)
      (hw : (s.lane i).workHold = some w)
      (hf : (s.lane i).fwdHold = none) :
      FoStep s { s with
        lane := Function.update s.lane i { s.lane i with workHold := none, fwdHold := some w } }
  | fwdSend (i : Fin n) (w : Int) (s : FoState n)
      (hf : (s.lane i).fwdHold = some w) :
      FoStep s { s with
        out := s.out ++ [w]
        lane := Function.update s.lane i { s.lane i with fwdHold := none } }
  | closeLane (i : Fin n) (s : FoState n) (hsrc : s.src = [])
      (hsc : s.srcClosed = true) (hh : s.distHold = none)
      (hic : (s.lane i).inClosed = false) :
      FoStep s { s with
        lane := Function.update s.lane i { s.lane i with inClosed := true } }
  | workExit (i : Fin n) (s : FoState n)
      (hic : (s.lane i).inClosed = true)
      (hw : (s.lane i).workHold = none)
      (hoc : (s.lane i).workOutClosed = false) :
      FoStep s { s with
        lane := Function.update s.lane i { s.lane i with workOutClosed := true } }
  | fwdExit (i : Fin n) (s : FoState n)
      (hoc : (s.lane i).workOutClosed = true)
      (hf : (s.lane i).fwdHold = none)
      (hd : (s.lane i).fwdDone = false) :
      FoStep s { s with
        lane := Function.update s.lane i { s.lane i with fwdDone := true } }
  | closeOut (s : FoState n) (hall : ∀ i, (s.lane i).fwdDone = true)
      (hcl : s.outClosed = false) :
      FoStep s { s with outClosed := true }

/-- The initial per-lane state: channel open, nothing held, not done. -/
def foLaneInit : FoLane :=
  { inClosed := false, workHold := none, workOutClosed := false,
    fwdHold := none, fwdDone := false }

/-- Initial state of the fan-out / fan-in pipeline. -/
def foInit (l : List Int) (n : Nat) : FoState n :=
  { src := l, srcClosed := false, distHold := none, distIdx := 0,
    lane := fun _ => foLaneInit, out := [], outClosed := false }

/-- Reachability in the fan-out / fan-in pipeline on input `l` with `n`
workers. -/
def FoReach (l : List Int) (n : Nat) (s : FoState n) : Prop :=
  Relation.ReflTransGen FoStep (foInit l n) s

/-- Invariant: a lane input channel is closed only after the source is
exhausted, the source channel is closed, and the coordinator holds no
undelivered item. -/
def FoInv {n : Nat} (s : FoState n) : Prop :=
  ∀ i, (s.lane i).inClosed = true →
    s.src = [] ∧ s.srcClosed = true ∧ s.distHold = none

theorem foInv_step {n : Nat} {s t : FoState n}
    (hinv : FoInv s) (hstep : FoStep s t) : FoInv t := by
  cases hstep with
  | closeSrc s hsrc hcl =>
    intro i hic
    exact ⟨(hinv i hic).1, rfl, (hinv i hic).2.2⟩
  | distRecv v rest s hsrc hh =>
    intro i hic
    rw [(hinv i hic).1] at hsrc
    exact absurd hsrc.symm (List.cons_ne_nil v rest)
  | laneXfer v s hh hlt hw =>
    intro j hjc
    have hjc' : (Function.update s.lane ⟨s.distIdx % n, hlt⟩ { (s.lane ⟨s.distIdx % n, hlt⟩) with workHold := some (v * v) } j).inClosed = true := hjc
    by_cases hji : j = (⟨s.distIdx % n, hlt⟩ : Fin n)
    · rw [hji, Function.update_same] at hjc'
      have : (s.lane (⟨s.distIdx % n, hlt⟩ : Fin n)).inClosed = true := hjc'
      exact absurd (hh.symm.trans (hinv _ this).2.2) (by simp)
    · rw [Function.update_noteq hji] at hjc'
      exact absurd (hh.symm.trans (hinv j hjc').2.2) (by simp)
  | workSend i w s hw hf =>
    intro j hjc
    have hjc' : (Function.update s.lane i { s.lane i with workHold := none, fwdHold := some w } j).inClosed = true := hjc
    by_cases hji : j = i
    · rw [hji, Function.update_same] at hjc'
      exact hinv i hjc'
    · rw [Function.update_noteq hji] at hjc'
      exact hinv j hjc'
  | fwdSend i w s hf =>
    intro j hjc
    have hjc' : (Function.update s.lane i { s.lane i with fwdHold := none } j).inClosed = true := hjc
    by_cases hji : j = i
    · rw [hji, Function.update_same] at hjc'
      exact hinv i hjc'
    · rw [Function.update_noteq hji] at hjc'
      exact hinv j hjc'
  | closeLane i s hsrc hsc hh hic =>
    intro j hjc
    exact ⟨hsrc, hsc, hh⟩
  | workExit i s hic hw hoc =>
    intro j hjc
    have hjc' : (Function.update s.lane i { s.lane i with workOutClosed := true } j).inClosed = true := hjc
    by_cases hji : j = i
    · exact hinv i hic
    · rw [Function.update_noteq hji] at hjc'
      exact hinv j hjc'
  | fwdExit i s hoc hf hd =>
    intro j hjc
    have hjc' : (Function.update s.lane i { s.lane i with fwdDone := true } j).inClosed = true := hjc
    by_cases hji : j = i
    · rw [hji, Function.update_same] at hjc'
      exact hinv i hjc'
    · rw [Function.update_noteq hji] at hjc'
      exact hinv j hjc'
  | closeOut s hall hcl =>
    intro i hic
    exact hinv i hic

theorem foInv_reach {l : List Int} {n : Nat} {s : FoState n}
    (h : FoReach l n s) : FoInv s := by
  induction h with
  | refl => intro i hic; simp [foInit, foLaneInit] at hic
  | tail hstar hstep ih => exact foInv_step ih hstep

/-- Per-lane termination measure. -/
def foLaneMeasure (ln : FoLane) : Nat :=
  2 * optCount ln.workHold + optCount ln.fwdHold + flagCost ln.inClosed
    + flagCost ln.workOutClosed + flagCost ln.fwdDone

/-- Termination measure for the fan-out / fan-in pipeline. -/
def foMeasure {n : Nat} (s : FoState n) : Nat :=
  4 * s.src.length + 3 * optCount s.distHold
    + (∑ i, foLaneMeasure (s.lane i)) + flagCost s.srcClosed
    + flagCost s.outClosed

theorem foStep_measure {n : Nat} {s t : FoState n} (h : FoStep s t) :
    foMeasure t < foMeasure s := by
  cases h with
  | closeSrc s hsrc hcl =>
    simp only [foMeasure, hcl, flagCost_true, flagCost_false]
    omega
  | distRecv v rest s hsrc hh =>
    simp only [foMeasure, hsrc, hh, optCount_none, optCount_some,
      List.length_cons]
    omega
  | laneXfer v s hh hlt hw =>
    have hX := sum_update_comp s.lane foLaneMeasure
      (⟨s.distIdx % n, hlt⟩ : Fin n)
      { (s.lane ⟨s.distIdx % n, hlt⟩) with workHold := some (v * v) }
    have hpt : foLaneMeasure { (s.lane ⟨s.distIdx % n, hlt⟩) with workHold := some (v * v) } = foLaneMeasure (s.lane ⟨s.distIdx % n, hlt⟩) + 2 := by
      simp only [foLaneMeasure, hw, optCount_none, optCount_some]
      try omega
    rw [hpt] at hX
    dsimp only at hX
    simp only [foMeasure, hh, optCount_none, optCount_some]
    omega
  | workSend i w s hw hf =>
    have hX := sum_update_comp s.lane foLaneMeasure i
      { s.lane i with workHold := none, fwdHold := some w }
    have hpt : foLaneMeasure { s.lane i with workHold := none, fwdHold := some w } + 1 = foLaneMeasure (s.lane i) := by
      simp only [foLaneMeasure, hw, hf, optCount_none, optCount_some]
      try omega
    dsimp only at hX hpt
    simp only [foMeasure]
    omega
  | fwdSend i w s hf =>
    have hX := sum_update_comp s.lane foLaneMeasure i
      { s.lane i with fwdHold := none }
    have hpt : foLaneMeasure { s.lane i with fwdHold := none } + 1 = foLaneMeasure (s.lane i) := by
      simp only [foLaneMeasure, hf, optCount_none, optCount_some]
      try omega
    dsimp only at hX hpt
    simp only [foMeasure]
    omega
  | closeLane i s hsrc hsc hh hic =>
    have hX := sum_update_comp s.lane foLaneMeasure i
      { s.lane i with inClosed := true }
    have hpt : foLaneMeasure { s.lane i with inClosed := true } + 1 = foLaneMeasure (s.lane i) := by
      simp only [foLaneMeasure, hic, flagCost_true, flagCost_false]
      try omega
    dsimp only at hX hpt
    simp only [foMeasure]
    omega
  | workExit i s hic hw hoc =>
    have hX := sum_update_comp s.lane foLaneMeasure i
      { s.lane i with workOutClosed := true }
    have hpt : foLaneMeasure { s.lane i with workOutClosed := true } + 1 = foLaneMeasure (s.lane i) := by
      simp only [foLaneMeasure, hoc, flagCost_true, flagCost_false]
      try omega
    dsimp only at hX hpt
    simp only [foMeasure]
    omega
  | fwdExit i s hoc hf hd =>
    have hX := sum_update_comp s.lane foLaneMeasure i
      { s.lane i with fwdDone := true }
    have hpt : foLaneMeasure { s.lane i with fwdDone := true } + 1 = foLaneMeasure (s.lane i) := by
      simp only [foLaneMeasure, hd, flagCost_true, flagCost_false]
      try omega
    dsimp only at hX hpt
    simp only [foMeasure]
    omega
  | closeOut s hall hcl =>
    simp only [foMeasure, hcl, flagCost_true, flagCost_false]
    omega

/-- Progress: with at least one worker, a stuck state of the fan-out /
fan-in pipeline is fully terminated: everything delivered, every channel
closed, every goroutine exited. -/
theorem foStuck {n : Nat} (hn : 0 < n) (s : FoState n)
    (hstuck : ∀ u, ¬ FoStep s u) :
    s.outClosed = true ∧ s.src = [] ∧ s.srcClosed = true ∧
      s.distHold = none ∧
      ∀ i, (s.lane i).inClosed = true ∧ (s.lane i).workHold = none ∧
        (s.lane i).workOutClosed = true ∧ (s.lane i).fwdHold = none ∧
        (s.lane i).fwdDone = true := by
  have hfwd : ∀ i, (s.lane i).fwdHold = none := by
    intro i
    cases hfh : (s.lane i).fwdHold with
    | none => rfl
    | some w => exact absurd (FoStep.fwdSend i w s hfh) (hstuck _)
  have hwork : ∀ i, (s.lane i).workHold = none := by
    intro i
    cases hwh : (s.lane i).workHold with
    | none => rfl
    | some w => exact absurd (FoStep.workSend i w s hwh (hfwd i)) (hstuck _)
  have hdh : s.distHold = none := by
    cases hd : s.distHold with
    | none => rfl
    | some v =>
      have hlt : s.distIdx % n < n := Nat.mod_lt _ hn
      exact absurd (FoStep.laneXfer v s hd hlt
        (hwork ⟨s.distIdx % n, hlt⟩)) (hstuck _)
  have hsrc : s.src = [] := by
    cases hsv : s.src with
    | nil => rfl
    | cons v rest => exact absurd (FoStep.distRecv v rest s hsv hdh) (hstuck _)
  have hsc : s.srcClosed = true := by
    by_cases hc : s.srcClosed = true
    · exact hc
    · exact absurd (FoStep.closeSrc s hsrc (Bool.not_eq_true _ ▸ hc))
        (hstuck _)
  have hic : ∀ i, (s.lane i).inClosed = true := by
    intro i
    by_cases hc : (s.lane i).inClosed = true
    · exact hc
    · exact absurd (FoStep.closeLane i s hsrc hsc hdh
        (Bool.not_eq_true _ ▸ hc)) (hstuck _)
  have hoc : ∀ i, (s.lane i).workOutClosed = true := by
    intro i
    by_cases hc : (s.lane i).workOutClosed = true
    · exact hc
    · exact absurd (FoStep.workExit i s (hic i) (hwork i)
        (Bool.not_eq_true _ ▸ hc)) (hstuck _)
  have hfd : ∀ i, (s.lane i).fwdDone = true := by
    intro i
    by_cases hc : (s.lane i).fwdDone = true
    · exact hc
    · exact absurd (FoStep.fwdExit i s (hoc i) (hfwd i)
        (Bool.not_eq_true _ ▸ hc)) (hstuck _)
  have hcl : s.outClosed = true := by
    by_cases hc : s.outClosed = true
    · exact hc
    · exact absurd (FoStep.closeOut s hfd (Bool.not_eq_true _ ▸ hc))
        (hstuck _)
  exact ⟨hcl, hsrc, hsc, hdh,
    fun i => ⟨hic i, hwork i, hoc i, hfwd i, hfd i⟩⟩

/-! ### Facts about the round-robin routing -/

theorem rrSends_map_snd (l : List Int) (n i : Nat) :
    (rrSends l n i).map Prod.snd = l := by
  induction l generalizing i with
  | nil => rfl
  | cons v rest ih => simp [rrSends, ih]

theorem rrSends_fst_lt (l : List Int) (n i : Nat) (hn : 0 < n) :
    ∀ p ∈ rrSends l n i, p.1 < n := by
  induction l generalizing i with
  | nil => intro p hp; simp [rrSends] at hp
  | cons v rest ih =>
    intro p hp
    simp only [rrSends] at hp
    rcases List.mem_cons.mp hp with h | h
    · rw [h]
      exact Nat.mod_lt _ hn
    · exact ih i.succ p h

theorem rrSends_getElem (l : List Int) (n i k : Nat) (v : Int)
    (h : l[k]? = some v) :
    (rrSends l n i)[k]? = some ((i + k) % n, v) := by
  induction l generalizing i k with
  | nil => simp at h
  | cons w rest ih =>
    cases k with
    | zero =>
      simp only [List.getElem?_cons_zero, Option.some.injEq] at h
      subst h
      simp [rrSends]
    | succ k =>
      simp only [List.getElem?_cons_succ] at h
      have hk := ih i.succ k h
      simp only [rrSends, List.getElem?_cons_succ]
      rw [hk]
      have harith : i.succ + k = i + (k + 1) := by omega
      rw [harith]

theorem filter_fst_list_multiset (n : Nat) (ps : List (Nat × Int))
    (hlt : ∀ p ∈ ps, p.1 < n) :
    (∑ j ∈ Finset.range n,
        (((ps.filter (fun p => p.1 == j)).map Prod.snd : List Int)
          : Multiset Int))
      = ((ps.map Prod.snd : List Int) : Multiset Int) := by
  induction ps with
  | nil => simp
  | cons p rest ih =>
    have hp : p.1 < n := hlt p (List.mem_cons_self p rest)
    have hrest : ∀ q ∈ rest, q.1 < n :=
      fun q hq => hlt q (List.mem_cons_of_mem p hq)
    have hsplit : ∀ j,
        ((((p :: rest).filter (fun q => q.1 == j)).map Prod.snd : List Int)
          : Multiset Int)
        = (if p.1 = j then ({p.2} : Multiset Int) else 0)
          + (((rest.filter (fun q => q.1 == j)).map Prod.snd : List Int)
            : Multiset Int) := by
      intro j
      by_cases hj : p.1 = j
      · simp [List.filter_cons, hj, List.map_cons, Multiset.singleton_add,
          Multiset.cons_coe]
      · simp [List.filter_cons, hj]
    calc (∑ j ∈ Finset.range n,
            ((((p :: rest).filter (fun q => q.1 == j)).map Prod.snd
              : List Int) : Multiset Int))
        = ∑ j ∈ Finset.range n,
            ((if p.1 = j then ({p.2} : Multiset Int) else 0)
              + (((rest.filter (fun q => q.1 == j)).map Prod.snd : List Int)
                : Multiset Int)) :=
          Finset.sum_congr rfl (fun j _ => hsplit j)
      _ = (∑ j ∈ Finset.range n,
            if p.1 = j then ({p.2} : Multiset Int) else 0)
          + ∑ j ∈ Finset.range n,
            (((rest.filter (fun q => q.1 == j)).map Prod.snd : List Int)
              : Multiset Int) := Finset.sum_add_distrib
      _ = ({p.2} : Multiset Int) + ((rest.map Prod.snd : List Int)
            : Multiset Int) := by
          rw [Finset.sum_ite_eq (Finset.range n) p.1
            (fun _ => ({p.2} : Multiset Int)),
            if_pos (Finset.mem_range.mpr hp), ih hrest]
      _ = (((p :: rest).map Prod.snd : List Int) : Multiset Int) := by
          simp [List.map_cons, Multiset.singleton_add, Multiset.cons_coe]

theorem laneOut_union (l : List Int) (n : Nat) (hn : 0 < n) :
    (∑ j ∈ Finset.range n, ((laneOut l n j : Multiset Int)))
      = (l : Multiset Int) := by
  have h := filter_fst_list_multiset n (rrSends l n 0)
    (fun p hp => rrSends_fst_lt l n 0 hn p hp)
  simp only [laneOut]
  rw [h, rrSends_map_snd]

theorem laneOut_sublist (l : List Int) (n j : Nat) :
    (laneOut l n j).Sublist l := by
  have h1 : ((rrSends l n 0).filter (fun p => p.1 == j)).Sublist
      (rrSends l n 0) := List.filter_sublist _
  have h2 := h1.map Prod.snd
  rw [rrSends_map_snd] at h2
  exact h2

/-- **C4.** The fan-out distributor: item `k` is routed to lane `k mod n`
(round-robin); the multiset union of the `n` lane outputs equals the
input multiset; each lane's output is a subsequence of the input in
original relative order; in every reachable state of the fan-out/fan-in
pipeline a lane input channel is closed only after the source channel is
exhausted and closed; and a complete execution exists in which the
coordinator has closed all `n` lane channels. -/
theorem fanOut_round_robin (l : List Int) (n : Nat) (hn : 0 < n) :
    (∀ k v, l[k]? = some v → (rrSends l n 0)[k]? = some (k % n, v)) ∧
    (∑ j ∈ Finset.range n, ((laneOut l n j : Multiset Int)))
      = (l : Multiset Int) ∧
    (∀ j, (laneOut l n j).Sublist l) ∧
    (∀ s : FoState n, FoReach l n s → ∀ i, (s.lane i).inClosed = true →
      s.src = [] ∧ s.srcClosed = true) ∧
    (∃ t, FoReach l n t ∧ (∀ u, ¬ FoStep t u) ∧
      ∀ i : Fin n, (t.lane i).inClosed = true) := by
  refine ⟨?_, laneOut_union l n hn, fun j => laneOut_sublist l n j, ?_, ?_⟩
  · intro k v hv
    have h := rrSends_getElem l n 0 k v hv
    simpa using h
  · intro s hs i hic
    have h := foInv_reach hs i hic
    exact ⟨h.1, h.2.1⟩
  · obtain ⟨t, ht, hstuck⟩ := reachesStuck FoStep foMeasure
      (fun s t h => foStep_measure h) (foInit l n)
    have hfin := foStuck hn t hstuck
    exact ⟨t, ht, hstuck, fun i => (hfin.2.2.2.2 i).1⟩

theorem fanOut_round_robin_witness :
    (∑ j ∈ Finset.range 3,
        ((laneOut [1, 2, 3, 4, 5, 6, 7, 8, 9, 10] 3 j : Multiset Int)))
      = (([1, 2, 3, 4, 5, 6, 7, 8, 9, 10] : List Int) : Multiset Int) :=
  (fanOut_round_robin [1, 2, 3, 4, 5, 6, 7, 8, 9, 10] 3 (by decide)).2.1

/-! ## The worker pool (worker-pool program)

`main` creates `jobs := make(chan int, numJobs)` and `results :=
make(chan int, numJobs)` (both buffered with capacity `numJobs`),
launches `numWorkers` goroutines running
`worker(i, jobs, results, &wg)`, sends jobs `1..numJobs` on `jobs`,
closes `jobs`, waits on the `WaitGroup`, closes `results`, and finally
drains `results`.  Each worker loops `for job := range jobs { results <-
job * 2 }` and runs its deferred `wg.Done()` on exit.  We generalise the
constant job sequence `1..numJobs` to an arbitrary finite list `jobs`
and the width to `w`; the two buffer capacities are `jobs.length`, as in
the source.  Buffered channels are explicit queues; a send is enabled
while the queue is shorter than the capacity. -/

/-- The program counter of the sequential `main` goroutine. -/
inductive MainPc where
  | sending
  | waiting
  | draining
  | finished
deriving DecidableEq

/-- State of the worker pool with `w` workers. -/
structure PoolState (w : Nat) where
  /-- jobs `main` has not yet sent on `jobs` -/
  toSend : List Int
  /-- the queue of the buffered `jobs` channel -/
  jobsBuf : List Int
  jobsClosed : Bool
  /-- the job worker `i` has received and not yet answered -/
  workHold : Fin w → Option Int
  /-- whether worker `i` has exited and run its deferred `wg.Done()` -/
  workDone : Fin w → Bool
  /-- the queue of the buffered `results` channel -/
  resultsBuf : List Int
  resultsClosed : Bool
  /-- results `main` has received while draining `results` -/
  collected : List Int
  pc : MainPc

/-- The goroutine performing a worker-pool step. -/
inductive PoolActor (w : Nat) where
  | main
  | worker (i : Fin w)
deriving DecidableEq

/-- Small-step semantics of the worker pool with buffer capacity `cap`
for both channels. -/
inductive PoolStepL {w : Nat} (cap : Nat) :
    PoolActor w → PoolState w → PoolState w → Prop where
  | sendJob (v : Int) (rest : List Int) (s : PoolState w)
      (hpc : s.pc = .sending) (hts : s.toSend = v :: rest)
      (hcap : s.jobsBuf.length < cap) :
      PoolStepL cap .main s { s with
        toSend := rest
        jobsBuf := s.jobsBuf ++ [v] }
  | closeJobs (s : PoolState w) (hpc : s.pc = .sending)
      (hts : s.toSend = []) :
      PoolStepL cap .main s { s with
        jobsClosed := true
        pc := .waiting }
  | closeResults (s : PoolState w) (hpc : s.pc = .waiting)
      (hall : ∀ i, s.workDone i = true) :
      PoolStepL cap .main s { s with
        resultsClosed := true
        pc := .draining }
  | collect (v : Int) (rest : List Int) (s : PoolState w)
      (hpc : s.pc = .draining) (hrb : s.resultsBuf = v :: rest) :
      PoolStepL cap .main s { s with
        resultsBuf := rest
        collected := s.collected ++ [v] }
  | finishMain (s : PoolState w) (hpc : s.pc = .draining)
      (hrb : s.resultsBuf = []) :
      PoolStepL cap .main s { s with pc := .finished }
  | recvJob (i : Fin w) (v : Int) (rest : List Int) (s : PoolState w)
      (hjb : s.jobsBuf = v :: rest) (hh : s.workHold i = none)
      (hd : s.workDone i = false) :
      PoolStepL cap (.worker i) s { s with
        jobsBuf := rest
        workHold := Function.update s.workHold i (some v) }
  | sendResult (i : Fin w) (v : Int) (s : PoolState w)
      (hh : s.workHold i = some v) (hcap : s.resultsBuf.length < cap) :
      PoolStepL cap (.worker i) s { s with
        workHold := Function.update s.workHold i none
        resultsBuf := s.resultsBuf ++ [v * 2] }
  | workerExit (i : Fin w) (s : PoolState w) (hjc : s.jobsClosed = true)
      (hjb : s.jobsBuf = []) (hh : s.workHold i = none)
      (hd : s.workDone i = false) :
      PoolStepL cap (.worker i) s { s with
        workDone := Function.update s.workDone i true }

/-- A worker-pool step by any goroutine. -/
def PoolStep {w : Nat} (cap : Nat) (s t : PoolState w) : Prop :=
  ∃ a, PoolStepL cap a s t

/-- Initial state: `main` about to send every job, workers launched and
blocked on the empty `jobs` channel. -/
def poolInit (jobs : List Int) (w : Nat) : PoolState w :=
  { toSend := jobs, jobsBuf := [], jobsClosed := false,
    workHold := fun _ => none, workDone := fun _ => false,
    resultsBuf := [], resultsClosed := false, collected := [],
    pc := .sending }

/-- Reachability in the worker pool on job list `jobs` with `w` workers
(both buffers have capacity `jobs.length`, as in the source). -/
def PoolReach (jobs : List Int) (w : Nat) (s : PoolState w) : Prop :=
  Relation.ReflTransGen (PoolStep jobs.length) (poolInit jobs w) s

/-- Inductive invariant of the worker pool: conservation of items and
the phase facts of the sequential `main`. -/
def PoolInv (total : Nat) {w : Nat} (s : PoolState w) : Prop :=
  (s.toSend.length + s.jobsBuf.length + (∑ i, optCount (s.workHold i))
      + s.resultsBuf.length + s.collected.length = total) ∧
  (s.pc ≠ .sending → s.jobsClosed = true ∧ s.toSend = []) ∧
  (s.resultsClosed = true → ∀ i, s.workDone i = true) ∧
  ((s.pc = .draining ∨ s.pc = .finished) → s.resultsClosed = true) ∧
  (∀ i, s.workDone i = true → s.workHold i = none) ∧
  (s.pc = .finished → s.resultsBuf = []) ∧
  (s.jobsClosed = false → s.pc = .sending)

theorem poolInv_init (jobs : List Int) (w : Nat) :
    PoolInv jobs.length (poolInit jobs w) := by
  refine ⟨?_, fun h => absurd rfl h, fun h => by simp [poolInit] at h,
    fun h => by rcases h with h | h <;> simp [poolInit] at h,
    fun i h => rfl, fun h => by simp [poolInit] at h, fun _ => rfl⟩
  simp [poolInit, optCount]

theorem poolInv_step {w total cap : Nat} {a : PoolActor w}
    {s t : PoolState w} (hinv : PoolInv total s)
    (hstep : PoolStepL cap a s t) : PoolInv total t := by
  obtain ⟨h1, h2, h3, h4, h5, h6, h7⟩ := hinv
  cases hstep with
  | sendJob v rest s hpc hts hcap =>
    refine ⟨?_, ?_, h3, ?_, h5, ?_, ?_⟩
    · rw [hts] at h1
      simp only [List.length_cons, List.length_append,
        List.length_nil] at h1 ⊢
      omega
    · intro hne
      exact absurd hpc hne
    · intro h
      rcases h with h | h <;> simp [hpc] at h
    · intro h
      exact absurd (hpc.symm.trans h) (by simp)
    · intro h
      exact h7 h
  | closeJobs s hpc hts =>
    refine ⟨h1, ?_, h3, ?_, h5, ?_, ?_⟩
    · intro _
      exact ⟨rfl, hts⟩
    · intro h
      rcases h with h | h <;> simp at h
    · intro h
      simp at h
    · intro h
      simp at h
  | closeResults s hpc hall =>
    refine ⟨h1, ?_, ?_, ?_, h5, ?_, ?_⟩
    · intro _
      exact h2 (by simp [hpc])
    · intro _
      exact hall
    · intro _
      rfl
    · intro h
      simp at h
    · intro h
      exact absurd (hpc.symm.trans (h7 h)) (by simp)
  | collect v rest s hpc hrb =>
    refine ⟨?_, ?_, h3, ?_, h5, ?_, ?_⟩
    · rw [hrb] at h1
      simp only [List.length_cons, List.length_append,
        List.length_nil] at h1 ⊢
      omega
    · intro _
      exact h2 (by simp [hpc])
    · intro h
      exact h4 h
    · intro h
      exact absurd (hpc.symm.trans h) (by simp)
    · intro h
      exact h7 h
  | finishMain s hpc hrb =>
    refine ⟨h1, ?_, h3, ?_, h5, ?_, ?_⟩
    · intro _
      exact h2 (by simp [hpc])
    · intro _
      exact h4 (Or.inl hpc)
    · intro _
      exact hrb
    · intro h
      exact absurd (hpc.symm.trans (h7 h)) (by simp)
  | recvJob i v rest s hjb hh hd =>
    have hX := sum_update_comp s.workHold optCount i (some v)
    rw [hh, optCount_none, optCount_some] at hX
    refine ⟨?_, h2, h3, h4, ?_, h6, h7⟩
    · rw [hjb] at h1
      simp only [List.length_cons] at h1 ⊢
      omega
    · intro j hdj
      by_cases hji : j = i
      · rw [hji] at hdj
        exact absurd (hdj.symm.trans hd) (by simp)
      · show Function.update s.workHold i (some v) j = none
        rw [Function.update_noteq hji]
        exact h5 j hdj
  | sendResult i v s hh hcap =>
    have hX := sum_update_comp s.workHold optCount i none
    rw [hh, optCount_none, optCount_some] at hX
    refine ⟨?_, h2, h3, h4, ?_, ?_, h7⟩
    · simp only [List.length_append, List.length_cons,
        List.length_nil] at h1 ⊢
      omega
    · intro j hdj
      by_cases hji : j = i
      · rw [hji]
        show Function.update s.workHold i none i = none
        rw [Function.update_same]
      · show Function.update s.workHold i none j = none
        rw [Function.update_noteq hji]
        exact h5 j hdj
    · intro hfin
      have hrc := h4 (Or.inr hfin)
      have hdall := h3 hrc
      exact absurd ((h5 i (hdall i)).symm.trans hh) (by simp)
  | workerExit i s hjc hjb hh hd =>
    refine ⟨h1, h2, ?_, h4, ?_, h6, h7⟩
    · intro hrc j
      by_cases hji : j = i
      · rw [hji]
        show Function.update s.workDone i true i = true
        rw [Function.update_same]
      · show Function.update s.workDone i true j = true
        rw [Function.update_noteq hji]
        exact h3 hrc j
    · intro j hdj
      by_cases hji : j = i
      · rw [hji]
        exact hh
      · have hdj' : Function.update s.workDone i true j = true := hdj
        rw [Function.update_noteq hji] at hdj'
        exact h5 j hdj'

theorem poolInv_reach {jobs : List Int} {w : Nat} {s : PoolState w}
    (h : PoolReach jobs w s) : PoolInv jobs.length s := by
  induction h with
  | refl => exact poolInv_init jobs w
  | tail hstar hstep ih =>
    obtain ⟨a, hstep⟩ := hstep
    exact poolInv_step ih hstep

/-- Number of actions still ahead of the sequential `main`. -/
def pcCost : MainPc → Nat
  | .sending => 3
  | .waiting => 2
  | .draining => 1
  | .finished => 0

/-- Termination measure for the worker pool. -/
def poolMeasure {w : Nat} (s : PoolState w) : Nat :=
  4 * s.toSend.length + 3 * s.jobsBuf.length
    + 2 * (∑ i, optCount (s.workHold i)) + s.resultsBuf.length
    + (∑ i, flagCost (s.workDone i)) + flagCost s.jobsClosed
    + flagCost s.resultsClosed + pcCost s.pc

theorem poolStep_measure {w cap : Nat} {s t : PoolState w}
    (h : PoolStep cap s t) : poolMeasure t < poolMeasure s := by
  obtain ⟨a, h⟩ := h
  cases h with
  | sendJob v rest s hpc hts hcap =>
    simp only [poolMeasure, hts, List.length_cons, List.length_append,
      List.length_nil]
    omega
  | closeJobs s hpc hts =>
    simp only [poolMeasure, hpc, pcCost, flagCost_true]
    omega
  | closeResults s hpc hall =>
    simp only [poolMeasure, hpc, pcCost, flagCost_true]
    omega
  | collect v rest s hpc hrb =>
    simp only [poolMeasure, hrb, List.length_cons, List.length_append,
      List.length_nil]
    omega
  | finishMain s hpc hrb =>
    simp only [poolMeasure, hpc, pcCost]
    omega
  | recvJob i v rest s hjb hh hd =>
    have hX := sum_update_comp s.workHold optCount i (some v)
    rw [hh, optCount_none, optCount_some] at hX
    simp only [poolMeasure, hjb, List.length_cons]
    omega
  | sendResult i v s hh hcap =>
    have hX := sum_update_comp s.workHold optCount i none
    rw [hh, optCount_none, optCount_some] at hX
    simp only [poolMeasure, List.length_append, List.length_cons,
      List.length_nil]
    omega
  | workerExit i s hjc hjb hh hd =>
    have hX := sum_update_comp s.workDone flagCost i true
    rw [hd, flagCost_false, flagCost_true] at hX
    simp only [poolMeasure]
    omega

/-- Progress: under the invariant, a stuck worker-pool state has `main`
finished, and in particular the `results` channel closed.  (The buffer
capacities equal the total number of jobs, as in the source, which is
what makes the `results` sends never block `main`'s `wg.Wait()`.) -/
theorem poolStuck {w total : Nat} (s : PoolState w)
    (hinv : PoolInv total s) (hstuck : ∀ u, ¬ PoolStep total s u) :
    s.pc = MainPc.finished ∧ s.resultsClosed = true := by
  obtain ⟨h1, h2, h3, h4, h5, h6, h7⟩ := hinv
  have hfin : s.pc = MainPc.finished := by
    cases hpc : s.pc with
    | sending =>
      cases hts : s.toSend with
      | nil => exact absurd ⟨_, PoolStepL.closeJobs s hpc hts⟩ (hstuck _)
      | cons v rest =>
        have hcap : s.jobsBuf.length < total := by
          rw [hts] at h1
          simp only [List.length_cons] at h1
          omega
        exact absurd ⟨_, PoolStepL.sendJob v rest s hpc hts hcap⟩
          (hstuck _)
    | waiting =>
      by_cases hall : ∀ i, s.workDone i = true
      · exact absurd ⟨_, PoolStepL.closeResults s hpc hall⟩ (hstuck _)
      · push_neg at hall
        obtain ⟨i, hi⟩ := hall
        have hd : s.workDone i = false := by
          cases hdi : s.workDone i
          · rfl
          · exact absurd hdi hi
        cases hh : s.workHold i with
        | some v =>
          have hle : optCount (s.workHold i)
              ≤ ∑ j, optCount (s.workHold j) :=
            @Finset.single_le_sum (Fin w) Nat _
              (fun j => optCount (s.workHold j)) Finset.univ
              (fun j _ => Nat.zero_le _) i (Finset.mem_univ i)
          rw [hh, optCount_some] at hle
          have hcap : s.resultsBuf.length < total := by omega
          exact absurd ⟨_, PoolStepL.sendResult i v s hh hcap⟩ (hstuck _)
        | none =>
          cases hjb : s.jobsBuf with
          | cons v rest =>
            exact absurd ⟨_, PoolStepL.recvJob i v rest s hjb hh hd⟩
              (hstuck _)
          | nil =>
            cases hjc : s.jobsClosed with
            | false =>
              exact absurd ((h7 hjc).symm.trans hpc) (by simp)
            | true =>
              exact absurd ⟨_, PoolStepL.workerExit i s hjc hjb hh hd⟩
                (hstuck _)
    | draining =>
      cases hrb : s.resultsBuf with
      | nil => exact absurd ⟨_, PoolStepL.finishMain s hpc hrb⟩ (hstuck _)
      | cons v rest =>
        exact absurd ⟨_, PoolStepL.collect v rest s hpc hrb⟩ (hstuck _)
    | finished => rfl
  exact ⟨hfin, h4 (Or.inr hfin)⟩

/-- With zero workers nothing is ever sent on `results`, so nothing is
ever collected. -/
theorem pool_zero_workers {cap : Nat} {jobs : List Int} {t : PoolState 0}
    (h : Relation.ReflTransGen (PoolStep cap) (poolInit jobs 0) t) :
    t.resultsBuf = [] ∧ t.collected = [] := by
  induction h with
  | refl => exact ⟨rfl, rfl⟩
  | tail hstar hstep ih =>
    obtain ⟨a, hstep⟩ := hstep
    cases hstep with
    | sendJob v rest s hpc hts hcap => exact ih
    | closeJobs s hpc hts => exact ih
    | closeResults s hpc hall => exact ih
    | collect v rest s hpc hrb =>
      rw [ih.1] at hrb
      exact absurd hrb.symm (List.cons_ne_nil v rest)
    | finishMain s hpc hrb => exact ih
    | recvJob i v rest s hjb hh hd => exact i.elim0
    | sendResult i v s hh hcap => exact i.elim0
    | workerExit i s hjc hjb hh hd => exact i.elim0

/-- **C2.** Every pipeline variant terminates on every finite input with
no deadlock, over *every* execution.  For each variant the statement has
three parts.  (i) Every transition strictly decreases a natural-number
measure, so from the initial state every execution is finite — it
reaches a state with no enabled transition within a bounded number of
scheduling steps (at most the initial measure).  (ii) Every stuck state
(for the pool: every reachable stuck state) is fully terminated: the
terminal output/result channel is closed and every goroutine has
exited, every channel is closed and no value is still held — so no
maximal execution ends with a producer or consumer blocked forever;
deadlock states do not exist.  (iii) A complete execution exists.
These cover the linear `generate` → `square` → `addTen` → `double`
chain (generic in the three stage functions), the fan-out/fan-in
pipeline for any worker count `n ≥ 1`, and the worker pool for any job
list and any width `w` (including `w = 0`), with `main` reaching its
final program point and `results` closed.  (No abort path exists
anywhere in the source, so early-abort executions are vacuous: these
are all the executions.) -/
theorem pipelines_terminate :
    (∀ (f1 f2 f3 : Int → Int) (l : List Int),
      (∀ s t : LinState, LinStep f1 f2 f3 s t →
        linMeasure t < linMeasure s) ∧
      (∀ t : LinState, (∀ u, ¬ LinStep f1 f2 f3 t u) →
        t.closed3 = true ∧ t.closed2 = true ∧ t.closed1 = true ∧
        t.srcClosed = true ∧ t.src = [] ∧ t.hold1 = none ∧
        t.hold2 = none ∧ t.hold3 = none) ∧
      (∃ t, Relation.ReflTransGen (LinStep f1 f2 f3) (linInit l) t ∧
        (∀ u, ¬ LinStep f1 f2 f3 t u) ∧ t.closed3 = true)) ∧
    (∀ (l : List Int) (n : Nat), 0 < n →
      (∀ s t : FoState n, FoStep s t → foMeasure t < foMeasure s) ∧
      (∀ t : FoState n, (∀ u, ¬ FoStep t u) →
        t.outClosed = true ∧ t.src = [] ∧ t.srcClosed = true ∧
        t.distHold = none ∧
        ∀ i, (t.lane i).inClosed = true ∧ (t.lane i).workHold = none ∧
          (t.lane i).workOutClosed = true ∧ (t.lane i).fwdHold = none ∧
          (t.lane i).fwdDone = true) ∧
      (∃ t, FoReach l n t ∧ (∀ u, ¬ FoStep t u) ∧
        t.outClosed = true)) ∧
    (∀ (jobs : List Int) (w : Nat),
      (∀ s t : PoolState w, PoolStep jobs.length s t →
        poolMeasure t < poolMeasure s) ∧
      (∀ t : PoolState w, PoolReach jobs w t →
        (∀ u, ¬ PoolStep jobs.length t u) →
        t.pc = MainPc.finished ∧ t.resultsClosed = true) ∧
      (∃ t, PoolReach jobs w t ∧ (∀ u, ¬ PoolStep jobs.length t u) ∧
        t.resultsClosed = true ∧ t.pc = MainPc.finished)) := by
  refine ⟨?_, ?_, ?_⟩
  · intro f1 f2 f3 l
    refine ⟨fun s t h => linStep_measure h, fun t h => linStuck t h, ?_⟩
    obtain ⟨t, ht, hstuck⟩ := reachesStuck (LinStep f1 f2 f3) linMeasure
      (fun s t h => linStep_measure h) (linInit l)
    exact ⟨t, ht, hstuck, (linStuck t hstuck).1⟩
  · intro l n hn
    refine ⟨fun s t h => foStep_measure h, fun t h => foStuck hn t h, ?_⟩
    obtain ⟨t, ht, hstuck⟩ := reachesStuck FoStep foMeasure
      (fun s t h => foStep_measure h) (foInit l n)
    exact ⟨t, ht, hstuck, (foStuck hn t hstuck).1⟩
  · intro jobs w
    refine ⟨fun s t h => poolStep_measure h,
      fun t ht h => poolStuck t (poolInv_reach ht) h, ?_⟩
    obtain ⟨t, ht, hstuck⟩ := reachesStuck (PoolStep jobs.length)
      poolMeasure (fun s t h => poolStep_measure h) (poolInit jobs w)
    obtain ⟨hfin, hrc⟩ := poolStuck t (poolInv_reach ht) hstuck
    exact ⟨t, ht, hstuck, hrc, hfin⟩

theorem pipelines_terminate_witness :
    ∃ t, FoReach [1, 2, 3, 4, 5, 6, 7, 8, 9, 10] 3 t ∧
      (∀ u, ¬ FoStep t u) ∧ t.outClosed = true :=
  (pipelines_terminate.2.1 [1, 2, 3, 4, 5, 6, 7, 8, 9, 10] 3
    (by decide)).2.2

/-- **C6.** Channel-closing ownership in the worker pool, for every
single transition: a worker step never changes the closed flag of
`jobs` or of `results`; the only transition that closes `jobs` is
`main`'s, from the sending phase after its last send (`toSend = []`);
the only transition that closes `results` is `main`'s, from the waiting
phase after every worker has exited; and neither closed flag is ever
unset.  Since each closing transition advances `main`'s program counter
out of the phase that enables it, each close happens exactly once per
execution. -/
theorem pool_close_ownership {w cap : Nat} (a : PoolActor w)
    (s t : PoolState w) (h : PoolStepL cap a s t) :
    (∀ i, a = PoolActor.worker i →
      t.jobsClosed = s.jobsClosed ∧ t.resultsClosed = s.resultsClosed) ∧
    (s.jobsClosed = false → t.jobsClosed = true →
      a = PoolActor.main ∧ s.pc = MainPc.sending ∧ s.toSend = [] ∧
        t.pc = MainPc.waiting) ∧
    (s.resultsClosed = false → t.resultsClosed = true →
      a = PoolActor.main ∧ s.pc = MainPc.waiting ∧
        (∀ i, s.workDone i = true) ∧ t.pc = MainPc.draining) ∧
    (s.jobsClosed = true → t.jobsClosed = true) ∧
    (s.resultsClosed = true → t.resultsClosed = true) := by
  cases h with
  | sendJob v rest s hpc hts hcap =>
    refine ⟨?_, ?_, ?_, fun h => h, fun h => h⟩
    · intro i hi
      exact absurd hi (by simp)
    · intro hf ht
      exact absurd (hf.symm.trans ht) (by simp)
    · intro hf ht
      exact absurd (hf.symm.trans ht) (by simp)
  | closeJobs s hpc hts =>
    refine ⟨?_, ?_, ?_, fun _ => rfl, fun h => h⟩
    · intro i hi
      exact absurd hi (by simp)
    · intro _ _
      exact ⟨rfl, hpc, hts, rfl⟩
    · intro hf ht
      exact absurd (hf.symm.trans ht) (by simp)
  | closeResults s hpc hall =>
    refine ⟨?_, ?_, ?_, fun h => h, fun _ => rfl⟩
    · intro i hi
      exact absurd hi (by simp)
    · intro hf ht
      exact absurd (hf.symm.trans ht) (by simp)
    · intro _ _
      exact ⟨rfl, hpc, hall, rfl⟩
  | collect v rest s hpc hrb =>
    refine ⟨?_, ?_, ?_, fun h => h, fun h => h⟩
    · intro i hi
      exact absurd hi (by simp)
    · intro hf ht
      exact absurd (hf.symm.trans ht) (by simp)
    · intro hf ht
      exact absurd (hf.symm.trans ht) (by simp)
  | finishMain s hpc hrb =>
    refine ⟨?_, ?_, ?_, fun h => h, fun h => h⟩
    · intro i hi
      exact absurd hi (by simp)
    · intro hf ht
      exact absurd (hf.symm.trans ht) (by simp)
    · intro hf ht
      exact absurd (hf.symm.trans ht) (by simp)
  | recvJob i v rest s hjb hh hd =>
    refine ⟨fun j hj => ⟨rfl, rfl⟩, ?_, ?_, fun h => h, fun h => h⟩
    · intro hf ht
      exact absurd (hf.symm.trans ht) (by simp)
    · intro hf ht
      exact absurd (hf.symm.trans ht) (by simp)
  | sendResult i v s hh hcap =>
    refine ⟨fun j hj => ⟨rfl, rfl⟩, ?_, ?_, fun h => h, fun h => h⟩
    · intro hf ht
      exact absurd (hf.symm.trans ht) (by simp)
    · intro hf ht
      exact absurd (hf.symm.trans ht) (by simp)
  | workerExit i s hjc hjb hh hd =>
    refine ⟨fun j hj => ⟨rfl, rfl⟩, ?_, ?_, fun h => h, fun h => h⟩
    · intro hf ht
      exact absurd (hf.symm.trans ht) (by simp)
    · intro hf ht
      exact absurd (hf.symm.trans ht) (by simp)

theorem pool_close_ownership_witness :
    (PoolActor.main : PoolActor 1) = PoolActor.main ∧
      (poolInit [] 1).pc = MainPc.sending ∧
      (poolInit [] 1).toSend = [] ∧
      ({ poolInit [] 1 with jobsClosed := true, pc := MainPc.waiting }
        : PoolState 1).pc = MainPc.waiting :=
  (pool_close_ownership PoolActor.main (poolInit [] 1)
    { poolInit [] 1 with jobsClosed := true, pc := MainPc.waiting }
    (PoolStepL.closeJobs (poolInit [] 1) rfl rfl :
      PoolStepL 0 PoolActor.main (poolInit [] 1)
        { poolInit [] 1 with jobsClosed := true, pc := MainPc.waiting })
    ).2.1 rfl rfl

/-- **C8 counterexample.** The code performs no construction-time width
validation at all (the widths are hardcoded constants): a distributor
run with `n = 0` is not rejected — on the empty input it even completes
without any error — and a worker pool constructed with `w = 0` takes
steps and runs to a finished state collecting nothing, reporting no
error.  So a width of zero does proceed into running the component, and
no configuration error is detected or reported synchronously at
construction. -/
theorem width_zero_runs :
    rrSendsE [] 0 0 = Except.ok [] ∧
    PoolStep 5 (poolInit [1, 2, 3, 4, 5] 0)
      { poolInit [1, 2, 3, 4, 5] 0 with toSend := [2, 3, 4, 5], jobsBuf := [1] } ∧
    (∃ t, PoolReach [1, 2, 3, 4, 5] 0 t ∧ t.pc = MainPc.finished ∧
      t.collected = [] ∧ t.resultsClosed = true) := by
  refine ⟨rfl, ⟨_, PoolStepL.sendJob 1 [2, 3, 4, 5] (poolInit [1, 2, 3, 4, 5] 0) rfl rfl (by decide)⟩, ?_⟩
  obtain ⟨t, ht, hstuck⟩ := reachesStuck
    (PoolStep ([1, 2, 3, 4, 5] : List Int).length) poolMeasure
    (fun s t h => poolStep_measure h) (poolInit [1, 2, 3, 4, 5] 0)
  have ht' : PoolReach [1, 2, 3, 4, 5] 0 t := ht
  obtain ⟨hfin, hrc⟩ := poolStuck t (poolInv_reach ht') hstuck
  exact ⟨t, ht', hfin, (pool_zero_workers ht).2, hrc⟩

/-- **C8 (amended).** What the code actually does with width zero: there
is no synchronous construction-time check; a distributor loop with
`n = 0` fails only at runtime, with a division-by-zero panic on its
first item (and succeeds vacuously on the empty input), while with any
`n ≥ 1` it runs without error; and a worker pool with `w = 0` runs to
completion, collecting no results and reporting no error. -/
theorem width_zero_behavior :
    (∀ (l : List Int) (i : Nat), l ≠ [] →
      rrSendsE l 0 i = Except.error GoPanic.divisionByZero) ∧
    (∀ (l : List Int) (n : Nat), 0 < n → ∀ i : Nat,
      rrSendsE l n i = Except.ok (rrSends l n i)) ∧
    (∀ jobs : List Int, ∃ t, PoolReach jobs 0 t ∧
      (∀ u, ¬ PoolStep jobs.length t u) ∧ t.pc = MainPc.finished ∧
      t.collected = []) := by
  refine ⟨?_, ?_, ?_⟩
  · intro l i hl
    cases l with
    | nil => exact absurd rfl hl
    | cons v rest => rfl
  · intro l n hn
    induction l with
    | nil => intro i; rfl
    | cons v rest ih =>
      intro i
      simp only [rrSendsE, rrSends]
      rw [if_neg (Nat.pos_iff_ne_zero.mp hn), ih i.succ]
      rfl
  · intro jobs
    obtain ⟨t, ht, hstuck⟩ := reachesStuck (PoolStep jobs.length)
      poolMeasure (fun s t h => poolStep_measure h) (poolInit jobs 0)
    obtain ⟨hfin, _⟩ := poolStuck t (poolInv_reach ht) hstuck
    exact ⟨t, ht, hstuck, hfin, (pool_zero_workers ht).2⟩

theorem width_zero_behavior_witness :
    rrSendsE [1] 0 0 = Except.error GoPanic.divisionByZero :=
  width_zero_behavior.1 [1] 0 (by simp)

/-- **C7.** The source (`generate`/`generator`) sends every item of its
input, in order, on its output channel and then closes it; on the empty
input its trace is just the close — no item and no error. -/
theorem source_emits_all (nums : List Int) :
    generate nums = nums.map ChanEvent.send ++ [ChanEvent.close] ∧
    sentValues (generate nums) = nums ∧
    generate [] = [ChanEvent.close] := by
  refine ⟨?_, ?_, rfl⟩
  · induction nums with
    | nil => rfl
    | cons v rest ih => simp [generate, ih]
  · induction nums with
    | nil => rfl
    | cons v rest ih => simp [generate, sentValues, ih]

/-- **C9.** The generic `transform` stage instantiated with `n * n`,
`n + 10` and `n * 2` produces, on every input channel contents, exactly
the output of the specialised `square`, `addTen` and `double` stages
(logging and artificial delays ignored). -/
theorem transform_refines_stages (l : List Int) :
    transform l (fun n => n * n) = square l ∧
    transform l (fun n => n + 10) = addTen l ∧
    transform l (fun n => n * 2) = double l := by
  induction l with
  | nil => exact ⟨rfl, rfl, rfl⟩
  | cons v rest ih =>
    exact ⟨by simp [transform, square, ih.1],
      by simp [transform, addTen, ih.2.1],
      by simp [transform, double, ih.2.2]⟩

end DsaGolang
